import Mathlib

/-!
Verification of the CurlClient HTTP client driver
(src/proxygen/httpclient/samples/curl/CurlClient.cpp) against its
natural-language specification.

The embedding translates the driver's observable behaviour into pure Lean
functions:

* The outbound body feeder (CurlClient::sendBodyFromFile, lines 174-192)
  together with the egress pause/resume callbacks (lines 249-260) is modelled
  as a chunked loop over the remaining bytes of the input source, emitting a
  trace of transaction calls (sendBody buffers, sendEOM) interleaved with
  pause/resume markers.  The C++ while-loop is embedded with an explicit
  fuel argument so that the definition stays structurally recursive and
  kernel-evaluable; the wrapper always supplies sufficient fuel
  (one more than the number of remaining bytes bounds the iteration count,
  because every iteration either consumes kReadSize = 4096 bytes or is the
  final short read after which good() is false), and a fuel-irrelevance
  lemma shows the choice does not matter.

  ifstream semantics captured by the model: good() holds until a read
  extracts fewer characters than requested (which sets eofbit/failbit);
  gcount() is the number of characters actually extracted, and
  buf->append(gcount) makes the sent buffer exactly that long.  Hence a
  source whose length is an exact multiple of 4096 (including the empty
  source) incurs one final zero-length read that is still sent.

* The response body forwarder (CurlClient::onBody, lines 219-231) walks a
  circular folly::IOBuf chain: the chain is modelled as the list of its
  segments in next-pointer order starting at the head, and the do/while walk
  as an index that advances modulo the chain length, stopping on returning
  to the head.

* The push handler (CurlClient::CurlPushHandler::onHeadersComplete,
  lines 289-299) is modelled as a state machine over the
  seenOnHeadersComplete_ flag plus the stored promise/response messages,
  polymorphic in the message payload.

* CurlClient::parseHeaders (lines 57-76) is modelled over List Char with a
  splitter mirroring folly::split (keeps empty pieces, splits at every
  occurrence of the delimiter).

* The request-building slice of CurlClient::sendRequest (lines 132-171),
  the h2c upgrade tagging (lines 142-144) and CurlClient::initializeSsl's
  effect on the h2c flag (line 95) are modelled over a record holding the
  upgrade tag and the header list.  HTTPHeaders (external library) is
  modelled from the spec: an ordered multimap with case-insensitive name
  lookup whose add operation appends.  HTTP2Codec::requestUpgrade (external
  library) is modelled from the spec as tagging the request for protocol
  upgrade.
-/

namespace CurlSpec

/-- Fixed read chunk size of the body feeder (kReadSize, line 175). -/
def kReadSize : Nat := 4096

/-- Observable transaction-level events of the body feeder: sendBody with the
exact bytes of the buffer, sendEOM, and markers for the transport's egress
pause/resume callbacks. -/
inductive Ev where
  | body (chunk : List Nat)
  | eom
  | pause
  | resume
deriving DecidableEq

/-- Result of one run of the sendBodyFromFile while-loop: the emitted events,
the callback index after the run, the remaining unread bytes of the source
(the ifstream read cursor), the stream's good() flag and the egressPaused_
flag. -/
structure LoopRes where
  evs : List Ev
  ci : Nat
  rem : List Nat
  good : Bool
  paused : Bool
deriving DecidableEq

/-- The while-loop of CurlClient::sendBodyFromFile (lines 183-188), with
explicit fuel.  Each iteration checks good() and the pause flag, reads up to
kReadSize bytes from the remaining source, appends exactly gcount() bytes to
the buffer and sends it.  sched gives, per sendBody call index, whether the
transport raises onEgressPaused during that sendBody call (flow control is
delivered re-entrantly on the same thread).  A read that extracts fewer than
kReadSize characters sets eofbit/failbit, so good() becomes false. -/
def sendLoopF (sched : Nat → Bool) : Nat → Nat → List Nat → Bool → Bool → LoopRes
  | 0, ci, rem, good, paused => ⟨[], ci, rem, good, paused⟩
  | fuel+1, ci, rem, good, paused =>
    if good && !paused then
      let chunk := rem.take kReadSize
      let rest := rem.drop kReadSize
      let p := sched ci
      let evs : List Ev := if p then [Ev.body chunk, Ev.pause] else [Ev.body chunk]
      if chunk.length = kReadSize then
        let r := sendLoopF sched fuel (ci+1) rest true p
        ⟨evs ++ r.evs, r.ci, r.rem, r.good, r.paused⟩
      else
        ⟨evs, ci+1, rest, false, p⟩
    else ⟨[], ci, rem, good, paused⟩

/-- The while-loop with its canonical (always sufficient) fuel. -/
def sendLoop (sched : Nat → Bool) (ci : Nat) (rem : List Nat) (good paused : Bool) : LoopRes :=
  sendLoopF sched (rem.length + 1) ci rem good paused

/-- CurlClient::sendBodyFromFile (lines 174-192): run the while-loop, then
send EOM unless egress is paused (lines 189-191). -/
def sendBodyFromFile (sched : Nat → Bool) (ci : Nat) (rem : List Nat) (good paused : Bool) :
    LoopRes :=
  let r := sendLoop sched ci rem good paused
  if r.paused then r else { r with evs := r.evs ++ [Ev.eom] }

/-- Driver state between transport callbacks. -/
structure RunSt where
  ci : Nat
  rem : List Nat
  good : Bool
  paused : Bool
deriving DecidableEq

/-- The sequence of onEgressResumed callbacks (lines 254-260): each clears
egressPaused_ and, since the input file handle is set, re-invokes
sendBodyFromFile.  Each resume carries its own pause schedule for the
re-invoked feeder. -/
def runResumes (scheds : List (Nat → Bool)) (s : RunSt) : List Ev × RunSt :=
  match scheds with
  | [] => ([], s)
  | sched :: rest =>
    let r := sendBodyFromFile sched s.ci s.rem s.good false
    let t := runResumes rest ⟨r.ci, r.rem, r.good, r.paused⟩
    (Ev.resume :: (r.evs ++ t.1), t.2)

/-- A whole POST exchange: sendRequest opens the body source and invokes
sendBodyFromFile (lines 165-168), after which any number of onEgressResumed
callbacks re-invoke the feeder. -/
def runExchange (file : List Nat) (sched0 : Nat → Bool) (resumes : List (Nat → Bool)) :
    List Ev × RunSt :=
  let r := sendBodyFromFile sched0 0 file true false
  let t := runResumes resumes ⟨r.ci, r.rem, r.good, r.paused⟩
  (r.evs ++ t.1, t.2)

/-- Concatenation of the buffers of all sendBody calls in a trace. -/
def bodyBytes : List Ev → List Nat
  | [] => []
  | Ev.body b :: t => b ++ bodyBytes t
  | _ :: t => bodyBytes t

/-- Whether an event is a send on the transaction (sendBody or sendEOM). -/
def isSend : Ev → Bool
  | Ev.body _ => true
  | Ev.eom => true
  | _ => false

/-- Number of sendEOM calls in a trace. -/
def countEom (t : List Ev) : Nat := t.countP (fun e => decide (e = Ev.eom))

/-- Number of sendBody calls in a trace. -/
def countBody (t : List Ev) : Nat :=
  t.countP (fun e => match e with | Ev.body _ => true | _ => false)

/-- Observable actions of CurlClient::onBody (lines 219-231): writing a
segment's bytes to the output sink and flushing it. -/
inductive OutEv where
  | write (bytes : List Nat)
  | flush
deriving DecidableEq

/-- The next pointer of a circular folly::IOBuf chain of n segments, as an
index: segment i links to segment (i+1) % n, so the last segment links back
to the head. -/
def chainNext (n i : Nat) : Nat := (i + 1) % n

/-- The do/while walk of onBody (lines 225-229): write the current segment's
data, flush, follow the next pointer, and stop upon returning to the head
segment (index 0).  Fuel bounds the walk; the caller supplies the chain
length, which suffices. -/
def walkChain (segs : List (List Nat)) : Nat → Nat → List OutEv
  | 0, _ => []
  | fuel+1, i =>
    OutEv.write (segs.getD i []) :: OutEv.flush ::
      (if chainNext segs.length i = 0 then [] else walkChain segs fuel (chainNext segs.length i))

/-- CurlClient::onBody (lines 219-231): nothing when logging is disabled or
the chain is null; otherwise the circular walk from the head segment. -/
def onBodyModel (loggingEnabled : Bool) (chain : Option (List (List Nat))) : List OutEv :=
  if !loggingEnabled then []
  else
    match chain with
    | none => []
    | some segs => walkChain segs segs.length 0

/-- State of CurlClient::CurlPushHandler: the seenOnHeadersComplete_ flag and
the stored promise_/response_ messages, polymorphic in the message payload. -/
structure PushHandlerState (M : Type) where
  seenOnHeadersComplete : Bool
  promise : Option M
  response : Option M

/-- A freshly constructed push handler. -/
def initialPushHandlerState (M : Type) : PushHandlerState M := ⟨false, none, none⟩

/-- CurlClient::CurlPushHandler::onHeadersComplete (lines 289-299): the first
headers-complete event is stored as the promise and logged with tag "[PP] ",
every later one is stored as the response and logged with tag "[PR] ". -/
def pushOnHeadersComplete {M : Type} (msg : M) (s : PushHandlerState M) :
    PushHandlerState M × String :=
  if s.seenOnHeadersComplete = false then
    (⟨true, some msg, s.response⟩, "[PP] ")
  else
    (⟨s.seenOnHeadersComplete, s.promise, some msg⟩, "[PR] ")

/-- folly::split with a single-character delimiter (keeps empty pieces,
splits at every occurrence), as used twice in CurlClient::parseHeaders. -/
def splitOnChar (c : Char) : List Char → List (List Char)
  | [] => [[]]
  | x :: xs =>
    if x = c then [] :: splitOnChar c xs
    else
      match splitOnChar c xs with
      | [] => [[x]]
      | t :: ts => (x :: t) :: ts

/-- The per-token body of the parseHeaders loop (lines 61-73): split the
token on '=', skip it when the name part is empty, take the piece after the
first '=' as the value (empty when there is no '='), discard any further
pieces, and append the pair to the collection. -/
def parseTok (acc : List (List Char × List Char)) (tok : List Char) :
    List (List Char × List Char) :=
  match splitOnChar '=' tok with
  | [] => acc
  | name :: rest => if name = [] then acc else acc ++ [(name, rest.headD [])]

/-- CurlClient::parseHeaders (lines 57-76): split the spec string on commas
and process each token. -/
def parseHeaders (s : List Char) : List (List Char × List Char) :=
  (splitOnChar ',' s).foldl parseTok []

/-- ASCII lower-casing of a character, for case-insensitive header-name
comparison. -/
def lowerChar (c : Char) : Char :=
  if 'A' ≤ c ∧ c ≤ 'Z' then Char.ofNat (c.toNat + 32) else c

/-- Case-folded header name. -/
def lowerName (s : String) : String := String.mk (s.data.map lowerChar)

/-- Modelled from the spec: HTTPHeaders::getNumberOfValues of the external
proxygen header collection — the number of stored pairs whose name matches
case-insensitively. -/
def countCI (hs : List (String × String)) (n : String) : Nat :=
  hs.countP (fun p => decide (lowerName p.1 = lowerName n))

/-- The default-header block of CurlClient::sendRequest (lines 146-154):
each of User-Agent, Host and Accept is appended if and only if no header of
that name is present yet; existing pairs are never touched. -/
def addDefaults (hostPort : String) (hs : List (String × String)) : List (String × String) :=
  let h1 := if countCI hs "User-Agent" = 0 then hs ++ [("User-Agent", "proxygen_curl")] else hs
  let h2 := if countCI h1 "Host" = 0 then h1 ++ [("Host", hostPort)] else h1
  if countCI h2 "Accept" = 0 then h2 ++ [("Accept", "*/*")] else h2

/-- The slice of the request descriptor relevant to the upgrade and header
claims: whether HTTP2Codec::requestUpgrade has tagged the message, and its
header collection. -/
structure CurlRequest where
  upgraded : Bool
  headers : List (String × String)
deriving DecidableEq

/-- Modelled from the spec: HTTP2Codec::requestUpgrade (external library)
tags the request message for cleartext protocol upgrade. -/
def requestUpgrade (r : CurlRequest) : CurlRequest := { r with upgraded := true }

/-- The request-building slice of CurlClient::sendRequest (lines 132-163):
tag the request for upgrade when the h2c flag is set (lines 142-144), add
the default headers (lines 146-154), then hand the message to
txn_->sendHeaders.  Returns the h2c flag after the call (the code never
clears it here) and the request as passed to sendHeaders. -/
def sendRequestModel (hostPort : String) (h2c : Bool) (req : CurlRequest) :
    Bool × CurlRequest :=
  let req1 := if h2c then requestUpgrade req else req
  let req2 := { req1 with headers := addDefaults hostPort req1.headers }
  (h2c, req2)

/-- The effect of CurlClient::initializeSsl (lines 78-96) on the
cleartext-upgrade flag: line 95 sets h2c_ = false unconditionally; the TLS
context construction itself is external.  Returns the flag after the call. -/
def sslInit (_h2c : Bool) : Bool := false

/-- The property that in a trace every pause marker is immediately followed
by a resume marker or ends the trace: the driver is passive between an
onEgressPaused and the matching onEgressResumed. -/
def PauseNext (t : List Ev) : Prop :=
  ∀ i, t[i]? = some Ev.pause → t[i+1]? = none ∨ t[i+1]? = some Ev.resume

theorem bodyBytes_append (a b : List Ev) :
    bodyBytes (a ++ b) = bodyBytes a ++ bodyBytes b := by
  induction a with
  | nil => rfl
  | cons e t ih => cases e <;> simp [bodyBytes, ih]

theorem sendLoopF_notgood (sched : Nat → Bool) (fuel ci : Nat) (rem : List Nat)
    (paused : Bool) : sendLoopF sched fuel ci rem false paused = ⟨[], ci, rem, false, paused⟩ := by
  cases fuel <;> simp [sendLoopF]

theorem sendLoopF_paused (sched : Nat → Bool) (fuel ci : Nat) (rem : List Nat)
    (good : Bool) : sendLoopF sched fuel ci rem good true = ⟨[], ci, rem, good, true⟩ := by
  cases fuel <;> simp [sendLoopF]

theorem sendLoopF_concat (sched : Nat → Bool) :
    ∀ (fuel ci : Nat) (rem : List Nat) (good paused : Bool),
      bodyBytes (sendLoopF sched fuel ci rem good paused).evs ++
        (sendLoopF sched fuel ci rem good paused).rem = rem
  | 0, ci, rem, good, paused => by simp [sendLoopF, bodyBytes]
  | fuel+1, ci, rem, good, paused => by
    simp only [sendLoopF]
    split
    · split
      · have ih := sendLoopF_concat sched fuel (ci+1) (rem.drop kReadSize) true (sched ci)
        cases hp : sched ci <;>
          simp_all [bodyBytes_append, bodyBytes, List.append_assoc, List.take_append_drop]
      · cases hp : sched ci <;> simp [hp, bodyBytes, List.take_append_drop]
    · simp [bodyBytes]

theorem sendLoopF_exhaust (sched : Nat → Bool) :
    ∀ (fuel ci : Nat) (rem : List Nat) (good paused : Bool),
      (good = false → rem = []) →
      (sendLoopF sched fuel ci rem good paused).good = false →
      (sendLoopF sched fuel ci rem good paused).rem = []
  | 0, ci, rem, good, paused => by intro h; simpa [sendLoopF] using h
  | fuel+1, ci, rem, good, paused => by
    intro h
    simp only [sendLoopF]
    split
    · split
      · exact sendLoopF_exhaust sched fuel (ci+1) (rem.drop kReadSize) true (sched ci)
          (by intro hf; cases hf)
      · rename_i hc
        intro _
        have hlen : rem.length < kReadSize := by
          rw [List.length_take] at hc
          omega
        simp [List.drop_eq_nil_of_le (Nat.le_of_lt hlen)]
    · simpa using h

theorem sendLoopF_suff (sched : Nat → Bool) :
    ∀ (fuel ci : Nat) (rem : List Nat) (good paused : Bool), rem.length < fuel →
      (sendLoopF sched fuel ci rem good paused).paused = false →
      (sendLoopF sched fuel ci rem good paused).good = false
  | 0, ci, rem, good, paused => by intro h; omega
  | fuel+1, ci, rem, good, paused => by
    intro hf
    simp only [sendLoopF]
    split
    · split
      · rename_i hg hc
        have hk : kReadSize = 4096 := rfl
        rw [List.length_take] at hc
        have hrest : (rem.drop kReadSize).length < fuel := by
          rw [List.length_drop]; omega
        exact sendLoopF_suff sched fuel (ci+1) (rem.drop kReadSize) true (sched ci) hrest
      · intro _; rfl
    · rename_i hg
      intro hp
      simp at hp hg ⊢
      simp [hp] at hg
      exact hg

theorem sendLoopF_pause_mem (sched : Nat → Bool) :
    ∀ (fuel ci : Nat) (rem : List Nat) (good paused : Bool),
      Ev.pause ∈ (sendLoopF sched fuel ci rem good paused).evs →
      (sendLoopF sched fuel ci rem good paused).paused = true
  | 0, ci, rem, good, paused => by simp [sendLoopF]
  | fuel+1, ci, rem, good, paused => by
    simp only [sendLoopF]
    split
    · split
      · intro hmem
        cases hp : sched ci with
        | false =>
          simp only [hp, if_neg Bool.false_ne_true] at hmem ⊢
          simp only [List.mem_append, List.mem_singleton] at hmem
          rcases hmem with h | h
          · simp at h
          · exact sendLoopF_pause_mem sched fuel (ci+1) (rem.drop kReadSize) true false h
        | true =>
          simp only [hp]
          rw [sendLoopF_paused]
      · intro hmem
        cases hp : sched ci <;> simp [hp] at hmem ⊢
    · simp

theorem sendLoopF_pause_last (sched : Nat → Bool) :
    ∀ (fuel ci : Nat) (rem : List Nat) (good paused : Bool) (i : Nat),
      (sendLoopF sched fuel ci rem good paused).evs[i]? = some Ev.pause →
      i + 1 = (sendLoopF sched fuel ci rem good paused).evs.length
  | 0, ci, rem, good, paused => by simp [sendLoopF]
  | fuel+1, ci, rem, good, paused => by
    simp only [sendLoopF]
    split
    · split
      · intro i hi
        cases hp : sched ci with
        | false =>
          simp only [hp, if_neg Bool.false_ne_true] at hi ⊢
          match i with
          | 0 => simp at hi
          | j+1 =>
            simp only [List.cons_append, List.nil_append, List.getElem?_cons_succ] at hi
            have := sendLoopF_pause_last sched fuel (ci+1) (rem.drop kReadSize) true false j hi
            simp [List.length_append]
            omega
        | true =>
          simp only [hp, if_pos rfl] at hi ⊢
          rw [sendLoopF_paused] at hi ⊢
          match i with
          | 0 => simp at hi
          | 1 => simp
          | j+2 => simp at hi
      · intro i hi
        cases hp : sched ci <;> simp only [hp] at hi ⊢ <;> simp at hi ⊢ <;>
          first
          | (match i with
             | 0 => simp at hi
             | 1 => simp
             | j+2 => simp at hi)
          | skip
        · match i with
          | 0 => simp at hi
          | 1 => simp at hi
          | j+2 => simp at hi
    · simp

theorem sendLoopF_eom_not_mem (sched : Nat → Bool) :
    ∀ (fuel ci : Nat) (rem : List Nat) (good paused : Bool),
      Ev.eom ∉ (sendLoopF sched fuel ci rem good paused).evs
  | 0, ci, rem, good, paused => by simp [sendLoopF]
  | fuel+1, ci, rem, good, paused => by
    simp only [sendLoopF]
    split
    · split
      · intro hmem
        cases hp : sched ci <;> simp only [hp] at hmem <;> simp at hmem <;>
          exact sendLoopF_eom_not_mem sched fuel (ci+1) (rem.drop kReadSize) true _ hmem
      · intro hmem
        cases hp : sched ci <;> simp [hp] at hmem
    · simp

theorem sendLoopF_const_false (sched : Nat → Bool) (hs : ∀ n, sched n = false) :
    ∀ (fuel ci : Nat) (rem : List Nat) (good : Bool),
      (sendLoopF sched fuel ci rem good false).paused = false
  | 0, ci, rem, good => by simp [sendLoopF]
  | fuel+1, ci, rem, good => by
    simp only [sendLoopF]
    split
    · split
      · simp only [hs]
        exact sendLoopF_const_false sched hs fuel (ci+1) (rem.drop kReadSize) true
      · simp [hs]
    · rfl

theorem sendLoopF_fuel (sched : Nat → Bool) :
    ∀ (f1 f2 ci : Nat) (rem : List Nat) (good paused : Bool),
      rem.length < f1 → rem.length < f2 →
      sendLoopF sched f1 ci rem good paused = sendLoopF sched f2 ci rem good paused
  | 0, _, ci, rem, good, paused => by intro h; omega
  | _+1, 0, ci, rem, good, paused => by intro _ h; omega
  | f1+1, f2+1, ci, rem, good, paused => by
    intro h1 h2
    simp only [sendLoopF]
    split
    · split
      · rename_i hc
        have hk : kReadSize = 4096 := rfl
        rw [List.length_take] at hc
        have hr : (rem.drop kReadSize).length < f1 := by rw [List.length_drop]; omega
        have hr2 : (rem.drop kReadSize).length < f2 := by rw [List.length_drop]; omega
        rw [sendLoopF_fuel sched f1 f2 (ci+1) (rem.drop kReadSize) true (sched ci) hr hr2]
      · rfl
    · rfl

theorem sendLoop_eq_sendLoopF (sched : Nat → Bool) (fuel ci : Nat) (rem : List Nat)
    (good paused : Bool) (h : rem.length < fuel) :
    sendLoop sched ci rem good paused = sendLoopF sched fuel ci rem good paused :=
  sendLoopF_fuel sched (rem.length + 1) fuel ci rem good paused (Nat.lt_succ_self _) h

theorem sendLoop_full (sched : Nat → Bool) (ci : Nat) (rem : List Nat)
    (h4 : kReadSize ≤ rem.length) :
    sendLoop sched ci rem true false =
      ⟨(if sched ci then [Ev.body (rem.take kReadSize), Ev.pause]
        else [Ev.body (rem.take kReadSize)]) ++
          (sendLoop sched (ci+1) (rem.drop kReadSize) true (sched ci)).evs,
       (sendLoop sched (ci+1) (rem.drop kReadSize) true (sched ci)).ci,
       (sendLoop sched (ci+1) (rem.drop kReadSize) true (sched ci)).rem,
       (sendLoop sched (ci+1) (rem.drop kReadSize) true (sched ci)).good,
       (sendLoop sched (ci+1) (rem.drop kReadSize) true (sched ci)).paused⟩ := by
  have hk : kReadSize = 4096 := rfl
  rw [sendLoop]
  simp only [sendLoopF]
  rw [if_pos (by simp)]
  have hc : (rem.take kReadSize).length = kReadSize := by
    rw [List.length_take]; omega
  rw [if_pos hc]
  have hr : (rem.drop kReadSize).length < rem.length := by
    rw [List.length_drop]; omega
  rw [show sendLoopF sched rem.length (ci+1) (rem.drop kReadSize) true (sched ci)
        = sendLoop sched (ci+1) (rem.drop kReadSize) true (sched ci) from
      (sendLoop_eq_sendLoopF sched rem.length (ci+1) (rem.drop kReadSize) true (sched ci) hr).symm]

theorem sendLoop_short (sched : Nat → Bool) (ci : Nat) (rem : List Nat)
    (h4 : rem.length < kReadSize) :
    sendLoop sched ci rem true false =
      ⟨if sched ci then [Ev.body rem, Ev.pause] else [Ev.body rem],
       ci + 1, [], false, sched ci⟩ := by
  rw [sendLoop]
  simp only [sendLoopF]
  rw [if_pos (by simp)]
  have hc : ¬ (rem.take kReadSize).length = kReadSize := by
    rw [List.length_take]; omega
  rw [if_neg hc]
  simp [List.take_of_length_le (Nat.le_of_lt h4), List.drop_eq_nil_of_le (Nat.le_of_lt h4)]

theorem sendBody_paused_noop (sched : Nat → Bool) (ci : Nat) (rem : List Nat) (good : Bool) :
    sendBodyFromFile sched ci rem good true = ⟨[], ci, rem, good, true⟩ := by
  rw [sendBodyFromFile, sendLoop, sendLoopF_paused]
  simp

theorem sendBody_notgood (sched : Nat → Bool) (ci : Nat) (rem : List Nat) :
    sendBodyFromFile sched ci rem false false = ⟨[Ev.eom], ci, rem, false, false⟩ := by
  rw [sendBodyFromFile, sendLoop, sendLoopF_notgood]
  simp

theorem sendBody_state_eq (sched : Nat → Bool) (ci : Nat) (rem : List Nat)
    (good paused : Bool) :
    (sendBodyFromFile sched ci rem good paused).ci = (sendLoop sched ci rem good paused).ci ∧
    (sendBodyFromFile sched ci rem good paused).rem = (sendLoop sched ci rem good paused).rem ∧
    (sendBodyFromFile sched ci rem good paused).good = (sendLoop sched ci rem good paused).good ∧
    (sendBodyFromFile sched ci rem good paused).paused =
      (sendLoop sched ci rem good paused).paused := by
  rw [sendBodyFromFile]
  split <;> simp

theorem sendBody_concat (sched : Nat → Bool) (ci : Nat) (rem : List Nat)
    (good paused : Bool) :
    bodyBytes (sendBodyFromFile sched ci rem good paused).evs ++
      (sendBodyFromFile sched ci rem good paused).rem = rem := by
  rw [sendBodyFromFile]
  split <;> simp [bodyBytes_append, bodyBytes, sendLoop, sendLoopF_concat]

theorem sendBody_exhaust (sched : Nat → Bool) (ci : Nat) (rem : List Nat)
    (good paused : Bool) (h : good = false → rem = []) :
    (sendBodyFromFile sched ci rem good paused).good = false →
    (sendBodyFromFile sched ci rem good paused).rem = [] := by
  obtain ⟨-, h2, h3, -⟩ := sendBody_state_eq sched ci rem good paused
  rw [h2, h3, sendLoop]
  exact sendLoopF_exhaust sched (rem.length + 1) ci rem good paused h

theorem sendBody_eom_exhausts (sched : Nat → Bool) (ci : Nat) (rem : List Nat)
    (good paused : Bool) (h : good = false → rem = [])
    (hmem : Ev.eom ∈ (sendBodyFromFile sched ci rem good paused).evs) :
    (sendBodyFromFile sched ci rem good paused).rem = [] := by
  rw [sendBodyFromFile] at hmem
  split at hmem
  · exact absurd hmem (by rw [sendLoop]; exact sendLoopF_eom_not_mem sched _ ci rem good paused)
  · rename_i hp
    apply sendBody_exhaust sched ci rem good paused h
    obtain ⟨-, -, h3, h4⟩ := sendBody_state_eq sched ci rem good paused
    rw [h3, h4] at *
    rw [sendLoop] at *
    apply sendLoopF_suff sched (rem.length + 1) ci rem good paused (Nat.lt_succ_self _)
    simpa using hp

theorem sendBody_pause_last (sched : Nat → Bool) (ci : Nat) (rem : List Nat)
    (good paused : Bool) (i : Nat)
    (hi : (sendBodyFromFile sched ci rem good paused).evs[i]? = some Ev.pause) :
    i + 1 = (sendBodyFromFile sched ci rem good paused).evs.length := by
  rw [sendBodyFromFile] at hi ⊢
  split at hi
  · rw [sendLoop] at *
    split
    · exact sendLoopF_pause_last sched _ ci rem good paused i hi
    · exact sendLoopF_pause_last sched _ ci rem good paused i hi
  · rename_i hp
    exfalso
    have hmem : Ev.pause ∈ (sendLoop sched ci rem good paused).evs ++ [Ev.eom] := by
      simp only [LoopRes.evs] at hi
      exact List.getElem?_mem hi
    simp only [List.mem_append, List.mem_singleton] at hmem
    rcases hmem with h | h
    · rw [sendLoop] at h hp
      exact hp (sendLoopF_pause_mem sched _ ci rem good paused h)
    · cases h

theorem pauseNext_append (seg t : List Ev)
    (hseg : ∀ i, seg[i]? = some Ev.pause → i + 1 = seg.length)
    (ht : PauseNext t) (hhead : t = [] ∨ t[0]? = some Ev.resume) :
    PauseNext (seg ++ t) := by
  intro i hp
  by_cases hi : i < seg.length
  · rw [List.getElem?_append_left hi] at hp
    have hlast := hseg i hp
    rw [List.getElem?_append_right (by omega), hlast, Nat.sub_self]
    rcases hhead with h | h
    · subst h; simp
    · right; exact h
  · push_neg at hi
    rw [List.getElem?_append_right hi] at hp
    have := ht (i - seg.length) hp
    rw [List.getElem?_append_right (by omega)]
    have harith : i + 1 - seg.length = i - seg.length + 1 := by omega
    rw [harith]
    exact this

theorem pauseNext_cons_resume (t : List Ev) (ht : PauseNext t) :
    PauseNext (Ev.resume :: t) := by
  intro i hp
  match i with
  | 0 => simp at hp
  | j+1 =>
    rw [List.getElem?_cons_succ] at hp
    have := ht j hp
    rw [List.getElem?_cons_succ]
    exact this

theorem runResumes_pauseNext (scheds : List (Nat → Bool)) :
    ∀ s : RunSt, PauseNext (runResumes scheds s).1 ∧
      ((runResumes scheds s).1 = [] ∨ (runResumes scheds s).1[0]? = some Ev.resume) := by
  induction scheds with
  | nil =>
    intro s
    constructor
    · intro i hp; simp [runResumes] at hp
    · left; rfl
  | cons sched rest ih =>
    intro s
    simp only [runResumes]
    obtain ⟨ihP, ihHead⟩ :=
      ih ⟨(sendBodyFromFile sched s.ci s.rem s.good false).ci,
          (sendBodyFromFile sched s.ci s.rem s.good false).rem,
          (sendBodyFromFile sched s.ci s.rem s.good false).good,
          (sendBodyFromFile sched s.ci s.rem s.good false).paused⟩
    refine ⟨?_, Or.inr (by simp)⟩
    exact pauseNext_cons_resume _
      (pauseNext_append _ _ (sendBody_pause_last sched s.ci s.rem s.good false) ihP ihHead)

theorem runExchange_pauseNext (file : List Nat) (sched0 : Nat → Bool)
    (resumes : List (Nat → Bool)) : PauseNext (runExchange file sched0 resumes).1 := by
  obtain ⟨ihP, ihHead⟩ :=
    runResumes_pauseNext resumes
      ⟨(sendBodyFromFile sched0 0 file true false).ci,
       (sendBodyFromFile sched0 0 file true false).rem,
       (sendBodyFromFile sched0 0 file true false).good,
       (sendBodyFromFile sched0 0 file true false).paused⟩
  exact pauseNext_append _ _ (sendBody_pause_last sched0 0 file true false) ihP ihHead

theorem runResumes_concat (scheds : List (Nat → Bool)) :
    ∀ s : RunSt, bodyBytes (runResumes scheds s).1 ++ (runResumes scheds s).2.rem = s.rem := by
  induction scheds with
  | nil => intro s; simp [runResumes, bodyBytes]
  | cons sched rest ih =>
    intro s
    simp only [runResumes, bodyBytes, bodyBytes_append]
    rw [List.append_assoc]
    rw [ih ⟨(sendBodyFromFile sched s.ci s.rem s.good false).ci,
            (sendBodyFromFile sched s.ci s.rem s.good false).rem,
            (sendBodyFromFile sched s.ci s.rem s.good false).good,
            (sendBodyFromFile sched s.ci s.rem s.good false).paused⟩]
    exact sendBody_concat sched s.ci s.rem s.good false

theorem runExchange_concat (file : List Nat) (sched0 : Nat → Bool)
    (resumes : List (Nat → Bool)) :
    bodyBytes (runExchange file sched0 resumes).1 ++ (runExchange file sched0 resumes).2.rem
      = file := by
  simp only [runExchange, bodyBytes_append]
  rw [List.append_assoc]
  rw [runResumes_concat resumes
      ⟨(sendBodyFromFile sched0 0 file true false).ci,
       (sendBodyFromFile sched0 0 file true false).rem,
       (sendBodyFromFile sched0 0 file true false).good,
       (sendBodyFromFile sched0 0 file true false).paused⟩]
  exact sendBody_concat sched0 0 file true false

theorem runResumes_eom (scheds : List (Nat → Bool)) :
    ∀ s : RunSt, (s.good = false → s.rem = []) →
      Ev.eom ∈ (runResumes scheds s).1 → (runResumes scheds s).2.rem = [] := by
  induction scheds with
  | nil => intro s _ hmem; simp [runResumes] at hmem
  | cons sched rest ih =>
    intro s hinv hmem
    simp only [runResumes] at hmem ⊢
    set r := sendBodyFromFile sched s.ci s.rem s.good false with hr
    have hinv' : r.good = false → r.rem = [] := sendBody_exhaust sched s.ci s.rem s.good false hinv
    simp only [List.mem_cons, List.mem_append] at hmem
    rcases hmem with h | h | h
    · cases h
    · have hrem : r.rem = [] := sendBody_eom_exhausts sched s.ci s.rem s.good false hinv h
      rw [hrem]
      have hc := runResumes_concat rest ⟨r.ci, [], r.good, r.paused⟩
      exact (List.append_eq_nil.mp hc).2
    · exact ih ⟨r.ci, r.rem, r.good, r.paused⟩ hinv' h

theorem runExchange_eom (file : List Nat) (sched0 : Nat → Bool)
    (resumes : List (Nat → Bool)) (hmem : Ev.eom ∈ (runExchange file sched0 resumes).1) :
    (runExchange file sched0 resumes).2.rem = [] := by
  simp only [runExchange] at hmem ⊢
  set r := sendBodyFromFile sched0 0 file true false with hr
  have hinv : r.good = false → r.rem = [] :=
    sendBody_exhaust sched0 0 file true false (by intro h; cases h)
  simp only [List.mem_append] at hmem
  rcases hmem with h | h
  · have hrem : r.rem = [] :=
      sendBody_eom_exhausts sched0 0 file true false (by intro h; cases h) h
    rw [hrem]
    have hc := runResumes_concat resumes ⟨r.ci, [], r.good, r.paused⟩
    exact (List.append_eq_nil.mp hc).2
  · exact runResumes_eom resumes ⟨r.ci, r.rem, r.good, r.paused⟩ hinv h

/-- C1: for every POST exchange with an open body source, after an
onEgressPaused event and before the matching onEgressResumed event the driver
makes no sendBody and no sendEOM calls; the concatenation of all sendBody
buffers plus the unread remainder is exactly the source (none duplicated,
none skipped, none reordered), and once sendEOM has been sent the
concatenation equals the whole source. -/
theorem curl_C1 (file : List Nat) (sched0 : Nat → Bool) (resumes : List (Nat → Bool)) :
    (∀ (i j : Nat) (e : Ev), (runExchange file sched0 resumes).1[i]? = some Ev.pause → i < j →
        (∀ k, i < k → k < j → (runExchange file sched0 resumes).1[k]? ≠ some Ev.resume) →
        (runExchange file sched0 resumes).1[j]? = some e → isSend e = false)
    ∧ bodyBytes (runExchange file sched0 resumes).1 ++ (runExchange file sched0 resumes).2.rem
        = file
    ∧ (Ev.eom ∈ (runExchange file sched0 resumes).1 →
        bodyBytes (runExchange file sched0 resumes).1 = file) := by
  refine ⟨?_, runExchange_concat file sched0 resumes, ?_⟩
  · intro i j e hp hij hnores hj
    rcases runExchange_pauseNext file sched0 resumes i hp with hnone | hres
    · have hlen : (runExchange file sched0 resumes).1.length ≤ i + 1 :=
        List.getElem?_eq_none_iff.mp hnone
      have : (runExchange file sched0 resumes).1[j]? = none :=
        List.getElem?_eq_none (by omega)
      rw [this] at hj
      cases hj
    · rcases Nat.lt_or_ge (i + 1) j with hlt | hge
      · exact absurd hres (hnores (i + 1) (Nat.lt_succ_self i) hlt)
      · have hje : j = i + 1 := by omega
        rw [hje, hres] at hj
        cases hj
        rfl
  · intro hmem
    have h1 := runExchange_eom file sched0 resumes hmem
    have h2 := runExchange_concat file sched0 resumes
    rw [h1, List.append_nil] at h2
    exact h2

/-- Counterexample to C2 as stated: for a POST with an empty (zero-length)
body source the feeder does not make zero sendBody calls — good() holds
before the first read, so one zero-length buffer is sent before sendEOM. -/
theorem curl_C2_counterexample :
    ¬ (countBody (sendBodyFromFile (fun _ => false) 0 [] true false).evs = 0) ∧
    (sendBodyFromFile (fun _ => false) 0 [] true false).evs = [Ev.body [], Ev.eom] := by
  constructor <;> decide

/-- C2 (amended): with a non-empty body source at least one non-empty
sendBody call occurs before sendEOM; with an empty body source the feeder
makes exactly one sendBody call carrying an empty buffer, followed by
sendEOM. -/
theorem curl_C2 (file : List Nat) :
    (file ≠ [] →
      ∃ b, b ≠ [] ∧
        (sendBodyFromFile (fun _ => false) 0 file true false).evs[0]? = some (Ev.body b) ∧
        (sendBodyFromFile (fun _ => false) 0 file true false).evs.getLast? = some Ev.eom)
    ∧ (file = [] →
        (sendBodyFromFile (fun _ => false) 0 file true false).evs = [Ev.body [], Ev.eom]) := by
  constructor
  · intro hne
    have hp : (sendLoop (fun _ => false) 0 file true false).paused = false := by
      rw [sendLoop]; exact sendLoopF_const_false _ (fun _ => rfl) _ 0 file true
    refine ⟨file.take kReadSize, ?_, ?_, ?_⟩
    · simp [kReadSize, hne]
    · rw [sendBodyFromFile]
      rw [if_neg (by simp [hp])]
      by_cases h4 : kReadSize ≤ file.length
      · rw [sendLoop_full _ _ _ h4]
        simp
      · push_neg at h4
        rw [sendLoop_short _ _ _ h4]
        simp [List.take_of_length_le (Nat.le_of_lt h4)]
    · rw [sendBodyFromFile]
      rw [if_neg (by simp [hp])]
      simp
  · intro h
    subst h
    decide

/-- C3: for a POST whose source holds exactly 10000 bytes the feeder makes
exactly three sendBody calls with buffers of sizes 4096, 4096 and 1808 — the
first two chunks and the final short read, each holding exactly the bytes
actually read — followed by exactly one sendEOM. -/
theorem curl_C3 (file : List Nat) (h : file.length = 10000) :
    sendBodyFromFile (fun _ => false) 0 file true false =
      ⟨[Ev.body (file.take kReadSize), Ev.body ((file.drop kReadSize).take kReadSize),
        Ev.body ((file.drop kReadSize).drop kReadSize), Ev.eom], 3, [], false, false⟩
    ∧ (file.take kReadSize).length = 4096
    ∧ ((file.drop kReadSize).take kReadSize).length = 4096
    ∧ ((file.drop kReadSize).drop kReadSize).length = 1808 := by
  have hk : kReadSize = 4096 := rfl
  have h1 : kReadSize ≤ file.length := by omega
  have h2 : kReadSize ≤ (file.drop kReadSize).length := by rw [List.length_drop]; omega
  have h3 : ((file.drop kReadSize).drop kReadSize).length < kReadSize := by
    rw [List.length_drop, List.length_drop]; omega
  have e1 := sendLoop_full (fun _ => false) 0 file h1
  have e2 := sendLoop_full (fun _ => false) 1 (file.drop kReadSize) h2
  have e3 := sendLoop_short (fun _ => false) 2 ((file.drop kReadSize).drop kReadSize) h3
  simp only [Bool.false_eq_true, if_false] at e1 e2 e3
  refine ⟨?_, by rw [List.length_take]; omega, by rw [List.length_take, List.length_drop]; omega,
    by rw [List.length_drop, List.length_drop]; omega⟩
  rw [sendBodyFromFile, e1, e2, e3]
  simp

/-- C10: an onEgressResumed delivered with the body source open but already
exhausted (good() false, end-of-message already sent) re-invokes the feeder,
which performs zero sendBody calls but calls sendEOM again: a concrete
three-byte exchange with one spurious resume shows the duplicated sendEOM. -/
theorem curl_C10 :
    (∀ (sched : Nat → Bool) (ci : Nat),
      sendBodyFromFile sched ci [] false false = ⟨[Ev.eom], ci, [], false, false⟩)
    ∧ (runExchange [1, 2, 3] (fun _ => false) [fun _ => false]).1 =
        [Ev.body [1, 2, 3], Ev.eom, Ev.resume, Ev.eom]
    ∧ countEom (runExchange [1, 2, 3] (fun _ => false) [fun _ => false]).1 = 2 := by
  exact ⟨fun sched ci => sendBody_notgood sched ci [], by decide, by decide⟩

theorem curl_C1_witness :
    Ev.eom ∈ (runExchange [9] (fun _ => true) [fun _ => false]).1 ∧
    bodyBytes (runExchange [9] (fun _ => true) [fun _ => false]).1 = [9] ∧
    isSend Ev.resume = false :=
  ⟨by decide, (curl_C1 [9] (fun _ => true) [fun _ => false]).2.2 (by decide),
   (curl_C1 [9] (fun _ => true) [fun _ => false]).1 1 2 Ev.resume (by decide) (by decide)
     (fun _ h1 h2 => absurd h2 (by omega)) (by decide)⟩

theorem curl_C2_witness :
    ([5] : List Nat) ≠ [] ∧
    (∃ b, b ≠ [] ∧
      (sendBodyFromFile (fun _ => false) 0 [5] true false).evs[0]? = some (Ev.body b) ∧
      (sendBodyFromFile (fun _ => false) 0 [5] true false).evs.getLast? = some Ev.eom) :=
  ⟨by decide, (curl_C2 [5]).1 (by decide)⟩

theorem curl_C3_witness :
    (List.replicate 10000 0).length = 10000 ∧
    (sendBodyFromFile (fun _ => false) 0 (List.replicate 10000 0) true false =
      ⟨[Ev.body ((List.replicate 10000 0).take kReadSize),
        Ev.body (((List.replicate 10000 0).drop kReadSize).take kReadSize),
        Ev.body (((List.replicate 10000 0).drop kReadSize).drop kReadSize), Ev.eom],
       3, [], false, false⟩
    ∧ ((List.replicate 10000 0).take kReadSize).length = 4096
    ∧ (((List.replicate 10000 0).drop kReadSize).take kReadSize).length = 4096
    ∧ (((List.replicate 10000 0).drop kReadSize).drop kReadSize).length = 1808) :=
  ⟨by rw [List.length_replicate], curl_C3 (List.replicate 10000 0) (by rw [List.length_replicate])⟩

theorem walkChain_spec (segs : List (List Nat)) :
    ∀ (fuel i : Nat), i < segs.length → segs.length - i ≤ fuel →
      walkChain segs fuel i =
        (segs.drop i).foldr (fun s acc => OutEv.write s :: OutEv.flush :: acc) []
  | 0, i => by intro h1 h2; omega
  | fuel+1, i => by
    intro h1 h2
    simp only [walkChain]
    rw [List.getD_eq_getElem segs [] h1]
    by_cases hend : i + 1 = segs.length
    · have hmod : chainNext segs.length i = 0 := by rw [chainNext, hend, Nat.mod_self]
      rw [hmod, if_pos rfl]
      rw [List.drop_eq_getElem_cons h1, List.drop_eq_nil_of_le (by omega)]
      rfl
    · have hlt : i + 1 < segs.length := by omega
      have hmod : chainNext segs.length i = i + 1 := by
        rw [chainNext]; exact Nat.mod_eq_of_lt hlt
      rw [hmod, if_neg (by omega)]
      rw [walkChain_spec segs fuel (i+1) hlt (by omega)]
      rw [List.drop_eq_getElem_cons h1, List.foldr_cons]

/-- C4: for every non-null circular buffer chain delivered to onBody with
logging enabled, the bytes of each segment are written to the output sink
exactly once, in chain order starting at the head segment, with a flush
after each segment, the walk stopping precisely upon returning to the head;
the bytes are forwarded untransformed. -/
theorem curl_C4 (segs : List (List Nat)) (h : segs ≠ []) :
    onBodyModel true (some segs) =
      segs.foldr (fun s acc => OutEv.write s :: OutEv.flush :: acc) [] := by
  have hpos : 0 < segs.length := List.length_pos.mpr h
  rw [onBodyModel]
  simp only [Bool.not_true, Bool.false_eq_true, if_false]
  rw [walkChain_spec segs segs.length 0 hpos (by omega), List.drop_zero]

theorem curl_C4_witness :
    ([[1], [2, 3]] : List (List Nat)) ≠ [] ∧
    onBodyModel true (some [[1], [2, 3]]) =
      [OutEv.write [1], OutEv.flush, OutEv.write [2, 3], OutEv.flush] :=
  ⟨by decide, (curl_C4 [[1], [2, 3]] (by decide)).trans (by decide)⟩

/-- C5: on a push stream the first headers-complete event is always stored
and logged as the promise and the second as the pushed response, regardless
of payload content; the boolean seen-first flag is the only handler state
that determines the classification. -/
theorem curl_C5 (M : Type) (m1 m2 : M) :
    (pushOnHeadersComplete m1 (initialPushHandlerState M)).2 = "[PP] "
    ∧ (pushOnHeadersComplete m1 (initialPushHandlerState M)).1.promise = some m1
    ∧ (pushOnHeadersComplete m2 (pushOnHeadersComplete m1 (initialPushHandlerState M)).1).2
        = "[PR] "
    ∧ (pushOnHeadersComplete m2
        (pushOnHeadersComplete m1 (initialPushHandlerState M)).1).1.response = some m2
    ∧ (pushOnHeadersComplete m2
        (pushOnHeadersComplete m1 (initialPushHandlerState M)).1).1.promise = some m1
    ∧ (∀ (s s' : PushHandlerState M) (m m' : M),
        s.seenOnHeadersComplete = s'.seenOnHeadersComplete →
        (pushOnHeadersComplete m s).2 = (pushOnHeadersComplete m' s').2) := by
  refine ⟨rfl, rfl, rfl, rfl, rfl, ?_⟩
  intro s s' m m' hseen
  by_cases hs : s'.seenOnHeadersComplete = false
  · rw [pushOnHeadersComplete, pushOnHeadersComplete, hseen, if_pos hs, if_pos hs]
  · rw [pushOnHeadersComplete, pushOnHeadersComplete, hseen, if_neg hs, if_neg hs]

theorem curl_C5_witness :
    (initialPushHandlerState Nat).seenOnHeadersComplete =
      (initialPushHandlerState Nat).seenOnHeadersComplete ∧
    (pushOnHeadersComplete 0 (initialPushHandlerState Nat)).2 =
      (pushOnHeadersComplete 1 (initialPushHandlerState Nat)).2 :=
  ⟨rfl, (curl_C5 Nat 0 1).2.2.2.2.2 _ _ 0 1 rfl⟩

theorem splitOnChar_not_mem (c : Char) : ∀ (xs : List Char), c ∉ xs → splitOnChar c xs = [xs]
  | [] => by intro; rfl
  | x :: xs => by
    intro h
    simp only [List.mem_cons, not_or] at h
    obtain ⟨hx, hxs⟩ := h
    simp only [splitOnChar]
    rw [if_neg (fun he => hx he.symm)]
    rw [splitOnChar_not_mem c xs hxs]

theorem splitOnChar_append (c : Char) : ∀ (xs ys : List Char), c ∉ xs →
    splitOnChar c (xs ++ c :: ys) = xs :: splitOnChar c ys
  | [], ys => by intro; simp [splitOnChar]
  | x :: xs, ys => by
    intro h
    simp only [List.mem_cons, not_or] at h
    obtain ⟨hx, hxs⟩ := h
    simp only [List.cons_append, splitOnChar]
    rw [if_neg (fun he => hx he.symm)]
    simp only [List.append_eq]
    rw [splitOnChar_append c xs ys hxs]

theorem parseTok_append (acc : List (List Char × List Char)) (tok : List Char) :
    parseTok acc tok = acc ++ parseTok [] tok := by
  cases hsp : splitOnChar '=' tok with
  | nil => simp [parseTok, hsp]
  | cons name rest =>
    by_cases hn : name = []
    · simp [parseTok, hsp, hn]
    · simp [parseTok, hsp, hn]

/-- C6: parseHeaders is total and parses best-effort: the spec string is
split on commas; a token with empty name is skipped entirely; a token with
no equals sign yields an empty value; fragments beyond the first
equals-delimited value are discarded; duplicate names are preserved in
insertion order; and the concrete string A=1,=2,B parses to exactly the two
entries A with value 1 and B with the empty value. -/
theorem curl_C6 :
    (parseHeaders ['A', '=', '1', ',', '=', '2', ',', 'B'] =
        [(['A'], ['1']), (['B'], ([] : List Char))])
    ∧ (∀ name : List Char, name ≠ [] → ',' ∉ name → '=' ∉ name →
        parseHeaders name = [(name, [])])
    ∧ (∀ name v1 v2 : List Char, name ≠ [] →
        ',' ∉ name → ',' ∉ v1 → ',' ∉ v2 → '=' ∉ name → '=' ∉ v1 →
        parseHeaders (name ++ '=' :: (v1 ++ '=' :: v2)) = [(name, v1)])
    ∧ (∀ name v : List Char, name ≠ [] → ',' ∉ name → ',' ∉ v → '=' ∉ name → '=' ∉ v →
        parseHeaders ((name ++ '=' :: v) ++ ',' :: (name ++ '=' :: v))
          = [(name, v), (name, v)]) := by
  refine ⟨by decide, ?_, ?_, ?_⟩
  · intro name hne hc he
    rw [parseHeaders, splitOnChar_not_mem ',' name hc]
    simp only [List.foldl_cons, List.foldl_nil]
    rw [parseTok, splitOnChar_not_mem '=' name he]
    simp [hne]
  · intro name v1 v2 hne hc hc1 hc2 he he1
    have hct : ',' ∉ name ++ '=' :: (v1 ++ '=' :: v2) := by
      have hq : (',' : Char) ≠ '=' := by decide
      intro hmem
      simp only [List.mem_append, List.mem_cons] at hmem
      tauto
    rw [parseHeaders, splitOnChar_not_mem ',' _ hct]
    simp only [List.foldl_cons, List.foldl_nil]
    rw [parseTok, splitOnChar_append '=' name _ he, splitOnChar_append '=' v1 v2 he1]
    simp [hne]
  · intro name v hne hc hcv he hev
    have hnotm : ',' ∉ name ++ '=' :: v := by
      have hq : (',' : Char) ≠ '=' := by decide
      intro hmem
      simp only [List.mem_append, List.mem_cons] at hmem
      tauto
    have h1 : parseTok [] (name ++ '=' :: v) = [(name, v)] := by
      rw [parseTok, splitOnChar_append '=' name v he, splitOnChar_not_mem '=' v hev]
      simp [hne]
    rw [parseHeaders, splitOnChar_append ',' (name ++ '=' :: v) _ hnotm,
        splitOnChar_not_mem ',' _ hnotm]
    simp only [List.foldl_cons, List.foldl_nil]
    rw [parseTok_append, h1]
    simp

theorem curl_C6_witness :
    ((['B'] : List Char) ≠ [] ∧ ',' ∉ (['B'] : List Char) ∧ '=' ∉ (['B'] : List Char)) ∧
    parseHeaders ['B'] = [((['B'] : List Char), ([] : List Char))] :=
  ⟨⟨by decide, by decide, by decide⟩, curl_C6.2.1 ['B'] (by decide) (by decide) (by decide)⟩

theorem countCI_append (a b : List (String × String)) (n : String) :
    countCI (a ++ b) n = countCI a n + countCI b n := by
  simp [countCI, List.countP_append]

theorem countCI_cons_ne (hs : List (String × String)) (n n' v : String)
    (h : lowerName n' ≠ lowerName n) :
    countCI ((n', v) :: hs) n = countCI hs n := by
  simp [countCI, List.countP_cons, h]

theorem countCI_nil (n : String) : countCI [] n = 0 := rfl

/-- C7: after sendRequest each of the default headers User-Agent, Host and
Accept has been appended exactly when the caller supplied no header of that
name under case-insensitive comparison, and the caller-supplied pairs are
preserved unchanged as a prefix of the result — never overwritten or
removed.  The equation characterizes the header collection completely. -/
theorem curl_C7 (hs : List (String × String)) (hostPort : String) :
    addDefaults hostPort hs = hs
      ++ (if countCI hs "User-Agent" = 0 then [("User-Agent", "proxygen_curl")] else [])
      ++ (if countCI hs "Host" = 0 then [("Host", hostPort)] else [])
      ++ (if countCI hs "Accept" = 0 then [("Accept", "*/*")] else []) := by
  have hUH : lowerName "User-Agent" ≠ lowerName "Host" := by decide
  have hUA : lowerName "User-Agent" ≠ lowerName "Accept" := by decide
  have hHA : lowerName "Host" ≠ lowerName "Accept" := by decide
  by_cases h1 : countCI hs "User-Agent" = 0 <;>
    by_cases h2 : countCI hs "Host" = 0 <;>
      by_cases h3 : countCI hs "Accept" = 0 <;>
        simp [addDefaults, h1, h2, h3, countCI_append, countCI_nil,
          countCI_cons_ne _ _ _ _ hUH, countCI_cons_ne _ _ _ _ hUA,
          countCI_cons_ne _ _ _ _ hHA, List.append_assoc]

/-- Counterexample to C8 as stated: sendRequest does not disable the
cleartext-upgrade flag after tagging the request — lines 142-144 call
requestUpgrade but never clear h2c_, so after sendRequest the flag is still
true, not false. -/
theorem curl_C8_counterexample :
    ¬ ((sendRequestModel "example.org:80" true ⟨false, []⟩).1 = false) := by decide

/-- C8 (amended): when cleartext-upgrade mode is still enabled at
sendRequest, the request passed to sendHeaders is tagged for protocol
upgrade before headers are sent, but the upgrade flag is left enabled, so a
subsequent request reuse tags the request for upgrade again. -/
theorem curl_C8 (hostPort : String) (req : CurlRequest) :
    (sendRequestModel hostPort true req).2.upgraded = true
    ∧ (sendRequestModel hostPort true req).1 = true
    ∧ (sendRequestModel hostPort (sendRequestModel hostPort true req).1 req).2.upgraded
        = true := by
  refine ⟨?_, rfl, ?_⟩ <;> simp [sendRequestModel, requestUpgrade]

/-- C9: initializeSsl leaves the cleartext-upgrade flag false even when
upgrade was requested at construction, so a subsequent sendRequest on a
TLS-initialized client never changes the request's upgrade tag and keeps the
flag false. -/
theorem curl_C9 (h2cRequested : Bool) (hostPort : String) (req : CurlRequest) :
    sslInit h2cRequested = false
    ∧ (sendRequestModel hostPort (sslInit h2cRequested) req).2.upgraded = req.upgraded
    ∧ (sendRequestModel hostPort (sslInit h2cRequested) req).1 = false := by
  refine ⟨rfl, ?_, rfl⟩
  simp [sendRequestModel, sslInit]

end CurlSpec
